import Mathlib

/-! # s3e: anonymous S3 bucket enumeration

A shallow embedding of `cmd/s3e/main.go` and the properties of its region
probe (`getRegion`), its recursive walk (`s3Enum.listWithPrefix`) and its
entry point (`main`).

Conventions of the embedding.

* A Go `string` is a list of characters.  The program only ever tests for the
  ASCII characters `.`, `/` and `,`, which never occur inside a multi-byte
  UTF-8 sequence, so scanning characters and scanning bytes agree on UTF-8 text.
* The outside world is carried explicitly: `World` records the listing requests
  sent so far and what has reached standard output and standard error.
* The listing service, the HTTP transport and the SDK's configuration loader are
  parameters: each answers a request with a fixed response.
* The walk is recursive and the service may answer with an endless hierarchy, so
  `listWithPrefix` takes a bound on the nesting depth of its calls; a run that
  would exceed the bound stops with `Run.outOfFuel`, keeping the world it reached.
-/

namespace S3E

/-- A Go `string`. -/
abbrev GoString := List Char

/-! ## Standard-library functions the program calls -/

/-- Go `os.IsPathSeparator` on Unix: `PathSeparator == c` with `PathSeparator = '/'`. -/
def os.IsPathSeparator (c : Char) : Bool := c == '/'

/-- The loop of Go `filepath.Ext`,
`for i := len(path) - 1; i >= 0 && !os.IsPathSeparator(path[i]); i--`,
with `ExtLoop path (i + 1)` standing for the loop at index `i`; leaving the loop
reaches `return ""`. -/
def filepath.ExtLoop (path : GoString) : Nat → GoString
  | 0 => []
  | i + 1 =>
    match path.get? i with
    | none => []
    | some c =>
      if os.IsPathSeparator c then []
      else if c = '.' then path.drop i
      else filepath.ExtLoop path i

/-- Go `filepath.Ext`: the suffix beginning at the final dot in the final element
of `path`; empty if there is no dot. -/
def filepath.Ext (path : GoString) : GoString :=
  filepath.ExtLoop path path.length

/-- Go `strings.Replace(s, old, new, n)` for a one-character `old` and `n ≥ 0`:
the first `n` occurrences of `old` are replaced by `new`. -/
def strings.Replace : GoString → Char → GoString → Nat → GoString
  | [], _, _, _ => []
  | c :: s, _, _, 0 => c :: s
  | c :: s, old, new, n + 1 =>
    if c = old then new ++ strings.Replace s old new n
    else c :: strings.Replace s old new (n + 1)

/-- Go `strings.HasSuffix`:
`len(s) >= len(suffix) && s[len(s)-len(suffix):] == suffix`. -/
def strings.HasSuffix (s suffix : GoString) : Bool :=
  decide (suffix.length ≤ s.length) && decide (s.drop (s.length - suffix.length) = suffix)

/-- Go `strings.Split(s, sep)` for a one-character separator: the pieces of `s`
between the occurrences of `sep`, empty pieces included. -/
def strings.Split : GoString → Char → List GoString
  | [], _ => [[]]
  | c :: s, sep =>
    if c = sep then [] :: strings.Split s sep
    else
      match strings.Split s sep with
      | [] => [[c]]
      | piece :: pieces => (c :: piece) :: pieces

/-- Go `slices.Contains`: whether `v` equals some element of `s`. -/
def slices.Contains : List GoString → GoString → Bool
  | [], _ => false
  | x :: s, v => decide (v = x) || slices.Contains s v

/-- SDK `aws.ToString`: the string a pointer refers to, `""` for a nil pointer. -/
def aws.ToString : Option GoString → GoString
  | none => []
  | some s => s

/-- Go `textproto.CanonicalMIMEHeaderKey` on a key made of letters, digits and
hyphens: the first letter and every letter after a hyphen in upper case, the
other letters in lower case. -/
def textproto.canonical : Bool → GoString → GoString
  | _, [] => []
  | upper, c :: s =>
    let c := if upper then c.toUpper else c.toLower
    c :: textproto.canonical (c == '-') s

/-- Go `textproto.CanonicalMIMEHeaderKey`, on a key of letters, digits and hyphens. -/
def textproto.CanonicalMIMEHeaderKey (key : GoString) : GoString :=
  textproto.canonical true key

/-! ## Data model -/

/-- Go `error` values: those made by `errors.New` and those the transport or the
SDK hand back, each with the text of its `Error()` method. -/
inductive GoError where
  | New (text : GoString)
  | foreign (text : GoString)
deriving DecidableEq, Repr

/-- The `Error()` method. -/
def GoError.Error : GoError → GoString
  | .New text => text
  | .foreign text => text

/-- An `http.Header`: a map from canonical keys to their values (no values for an
absent key). -/
abbrev Header := GoString → List GoString

/-- Go `http.Header.Get`: the first value of the canonicalised key, `""` if none. -/
def Header.Get (h : Header) (key : GoString) : GoString :=
  match h (textproto.CanonicalMIMEHeaderKey key) with
  | [] => []
  | v :: _ => v

/-- The fields of `http.Response` the program reads. -/
structure Response where
  StatusCode : Int
  Header : Header

/-- The fields of `s3.ListObjectsInput` the program sets. -/
structure ListObjectsInput where
  Bucket : GoString
  Prefix : GoString
  Delimiter : GoString
deriving DecidableEq, Repr

/-- Modelled from the spec: the SDK's `types.CommonPrefix` declaration is not part
of the repository; the spec's listing page holds "common prefixes (virtual
sub-directories discovered at that level)".  The program reads `*object.Prefix`,
so the field is the string the pointer refers to. -/
structure CommonPrefix where
  Prefix : GoString
deriving DecidableEq, Repr

/-- Modelled from the spec: the SDK's `types.Object` declaration is not part of the
repository; the spec's listing page holds "object entries (key, size,
last-modified timestamp)".  `Key` is passed through `aws.ToString` by the program
and so may be nil; `LastModified` is the text that `%s` prints for the entry's
timestamp; `Size` is the integer `*object.Size` reads. -/
structure Object where
  Key : Option GoString
  LastModified : GoString
  Size : Int
deriving DecidableEq, Repr

/-- The fields of `s3.ListObjectsOutput` the program reads. -/
structure ListObjectsOutput where
  CommonPrefixes : List CommonPrefix
  Contents : List Object
deriving DecidableEq, Repr

/-- The listing call `client.ListObjects`: a response or an error per request. -/
abbrev Client := ListObjectsInput → Except GoError ListObjectsOutput

/-- The receiver of `listWithPrefix`. -/
structure s3Enum where
  exclusions : List GoString
  client : Client

/-- The three values one `fmt.Fprintf(w, "%s\t%d\t%s\t\n", ...)` call formats:
one line of the table. -/
structure Row where
  timestamp : GoString
  size : Int
  key : GoString
deriving DecidableEq, Repr

/-- What reaches standard output: a line printed by `fmt.Println`/`fmt.Printf`, or
a table row flushed by a `tabwriter`. -/
inductive Out where
  | line (text : GoString)
  | row (r : Row)
deriving DecidableEq, Repr

/-- The world outside the program: the listing requests sent, oldest first, and
the contents of standard output and standard error. -/
structure World where
  requests : List ListObjectsInput
  stdout : List Out
  stderr : List GoString
deriving DecidableEq, Repr

/-- The world before the program has done anything. -/
def World.empty : World := ⟨[], [], []⟩

/-- The world `σ` followed by the effects recorded in `τ`. -/
def World.append (σ τ : World) : World :=
  ⟨σ.requests ++ τ.requests, σ.stdout ++ τ.stdout, σ.stderr ++ τ.stderr⟩

/-- How a run ends: it returned (`done`), or it needed calls nested deeper than
the bound it was given (`outOfFuel`); either way with the world it reached. -/
inductive Run where
  | done (σ : World)
  | outOfFuel (σ : World)
deriving DecidableEq, Repr

/-- The world a run reached. -/
def Run.world : Run → World
  | .done σ => σ
  | .outOfFuel σ => σ

/-- The run `r` replayed after `σ`. -/
def Run.after (σ : World) : Run → Run
  | .done τ => .done (σ.append τ)
  | .outOfFuel τ => .outOfFuel (σ.append τ)

/-! ## The walk: `s3Enum.listWithPrefix` -/

/-- The request `listWithPrefix` builds (lines 100-104). -/
def listInput (bucket pfx : GoString) : ListObjectsInput :=
  { Bucket := bucket, Prefix := pfx, Delimiter := "/".toList }

/-- The extension computed on line 114:
`strings.Replace(filepath.Ext(aws.ToString(object.Key)), ".", "", 1)`. -/
def extension (key : Option GoString) : GoString :=
  strings.Replace (filepath.Ext (aws.ToString key)) '.' [] 1

/-- The row printed for an object on line 116. -/
def objectRow (object : Object) : Row :=
  ⟨object.LastModified, object.Size, aws.ToString object.Key⟩

/-- The row printed on line 121 when the listing call failed. -/
def deniedRow (pfx : GoString) : Row :=
  ⟨"0000-00-00 00:00:00 +0000 UTC".toList, 0, pfx ++ " (Access Denied)".toList⟩

/-- The loop of lines 109-111, `for _, object := range output.CommonPrefixes`,
with `call` the recursive `e.listWithPrefix(bucket, ·)`. -/
def rangeCommonPrefixes (call : GoString → World → Run) : List CommonPrefix → World → Run
  | [], σ => .done σ
  | object :: rest, σ =>
    match call object.Prefix σ with
    | .done σ' => rangeCommonPrefixes call rest σ'
    | .outOfFuel σ' => .outOfFuel σ'

/-- The loop of lines 113-118, `for _, object := range output.Contents`, writing
into the buffer `w` of the tabwriter. -/
def rangeContents (exclusions : List GoString) : List Object → List Row → List Row
  | [], w => w
  | object :: rest, w =>
    if !slices.Contains exclusions (extension object.Key) then
      rangeContents exclusions rest (w ++ [objectRow object])
    else
      rangeContents exclusions rest w

/-- The method `s3Enum.listWithPrefix` (lines 99-125).  The first argument bounds the
nesting depth of the calls; `w` is the buffer of the tabwriter created on line
106, and the last step is `w.Flush()`. -/
def listWithPrefix (e : s3Enum) (bucket : GoString) : Nat → GoString → World → Run
  | 0 => fun _ σ => .outOfFuel σ
  | fuel + 1 => fun pfx σ =>
    let input := listInput bucket pfx
    let σ := { σ with requests := σ.requests ++ [input] }
    let w : List Row := []
    match e.client input with
    | .ok output =>
      match rangeCommonPrefixes (listWithPrefix e bucket fuel) output.CommonPrefixes σ with
      | .done σ =>
        let w := rangeContents e.exclusions output.Contents w
        .done { σ with stdout := σ.stdout ++ w.map Out.row }
      | .outOfFuel σ => .outOfFuel σ
    | .error _ =>
      let w := w ++ [deniedRow pfx]
      .done { σ with stdout := σ.stdout ++ w.map Out.row }

/-! ## The region probe: `getRegion` -/

/-- The URL built on line 71: `fmt.Sprintf("https://%s.s3.amazonaws.com", bucketName)`. -/
def requestURL (bucketName : GoString) : GoString :=
  "https://".toList ++ bucketName ++ ".s3.amazonaws.com".toList

/-- The function `getRegion` (lines 70-92): the returned pair and the world after the
call.  `get` is `client.Get` of the probe's HTTP client. -/
def getRegion (get : GoString → Except GoError Response) (bucketName : GoString)
    (σ : World) : (GoString × Option GoError) × World :=
  match get (requestURL bucketName) with
  | .error err =>
    (([], some err),
      { σ with stdout := σ.stdout ++ [.line ("error making http request: ".toList ++ err.Error)] })
  | .ok res =>
    if res.StatusCode = 404 then
      (([], some (.New "bucket not found".toList)), σ)
    else
      let region := res.Header.Get "x-amz-bucket-region".toList
      if region = [] then
        (([], some (.New "missing region header".toList)), σ)
      else
        ((region, none), σ)

/-! ## The entry point: `main` -/

/-- The values of the command-line flags `-b`, `-p` and `-e` after `flag.Parse`. -/
structure Flags where
  b : GoString
  p : GoString
  e : GoString

/-- The SDK configuration `config.LoadDefaultConfig` returns. -/
structure Config where
  Region : GoString

/-- The collaborators of `main`: the probe's `client.Get`, the SDK's
`config.LoadDefaultConfig` (called with the anonymous credentials and the given
default region) and `s3.NewFromConfig`. -/
structure Env where
  Get : GoString → Except GoError Response
  LoadDefaultConfig : GoString → Except GoError Config
  NewFromConfig : Config → Client

/-- The text `fmt.Println` prints for a value of type `error`: its `Error()` text,
`<nil>` for the nil error. -/
def fmt.errorText : Option GoError → GoString
  | some err => err.Error
  | none => "<nil>".toList

/-- Lines 34-36 of `main`: the value of `*prefix` after
`if *prefix != "" && !strings.HasSuffix(*prefix, "/") { *prefix += "/" }`. -/
def rootPrefix (p : GoString) : GoString :=
  if p ≠ [] ∧ !strings.HasSuffix p "/".toList then p ++ "/".toList else p

/-- Lines 38-41 of `main`: the exclusion list. -/
def parseExclusions (exclusionsString : GoString) : List GoString :=
  if exclusionsString ≠ [] then strings.Split exclusionsString ',' else []

/-- The function `main` (lines 22-68): how the run ends and the exit status of the
process.  `log.Fatal` writes the error to standard error (after the logger's
date and time, left out here) and exits with status 1. -/
def main (env : Env) (flags : Flags) (fuel : Nat) (σ : World) : Run × Nat :=
  if flags.b = [] then
    (.done { σ with stdout := σ.stdout ++ [.line "bucket name (-b) required".toList] }, 2)
  else
    let pfx := rootPrefix flags.p
    let exclusions := parseExclusions flags.e
    match getRegion env.Get flags.b σ with
    | ((region, getRegionErr), σ) =>
      if getRegionErr = none ∧ region ≠ [] then
        let σ := { σ with stdout := σ.stdout ++
          [.line ("Bucket: ".toList ++ flags.b), .line ("Region ".toList ++ region)] }
        match env.LoadDefaultConfig region with
        | .error err => (.done { σ with stderr := σ.stderr ++ [err.Error] }, 1)
        | .ok cfg =>
          let client := env.NewFromConfig cfg
          let s3Enum : s3Enum := { client := client, exclusions := exclusions }
          (listWithPrefix s3Enum flags.b fuel pfx σ, 0)
      else
        (.done { σ with stdout := σ.stdout ++
          [.line (fmt.errorText getRegionErr)] }, 0)

/-! ## Definitions used to state the properties -/

/-- The effects of a list of runs, one after the other. -/
def World.concat : List World → World
  | [] => World.empty
  | τ :: τs => τ.append (World.concat τs)

/-- The extension as the spec words it: the substring after the final `.` of the
key, empty if the key has no `.`. -/
def afterLastDot (k : GoString) : GoString :=
  if '.' ∈ k then (k.reverse.takeWhile (fun c => decide (c ≠ '.'))).reverse else []

/-- The final element of a key: the text after its last `/`, the whole key if it
has none. -/
def lastElement (k : GoString) : GoString :=
  (k.reverse.takeWhile (fun c => decide (c ≠ '/'))).reverse

/-- A finite tree of prefixes: a prefix and the trees below it, in order. -/
inductive PrefixTree where
  | node (pfx : GoString) (kids : List PrefixTree)

/-- The prefix at the root of a tree. -/
def PrefixTree.root : PrefixTree → GoString
  | .node pfx _ => pfx

mutual
/-- Pre-order traversal: the root, then each subtree in turn, whole. -/
def PrefixTree.preorder : PrefixTree → List GoString
  | .node pfx kids => pfx :: PrefixTree.preorderAll kids
/-- Pre-order traversal of a list of trees, one tree after the other. -/
def PrefixTree.preorderAll : List PrefixTree → List GoString
  | [] => []
  | t :: ts => t.preorder ++ PrefixTree.preorderAll ts
end

mutual
/-- The number of levels of a tree. -/
def PrefixTree.depth : PrefixTree → Nat
  | .node _ kids => PrefixTree.depthAll kids + 1
/-- The largest number of levels among a list of trees. -/
def PrefixTree.depthAll : List PrefixTree → Nat
  | [] => 0
  | t :: ts => max t.depth (PrefixTree.depthAll ts)
end

/-- The tree `t` is the listing tree of the service below `t.root`: a prefix whose
listing fails has nothing below it, and below a prefix whose listing succeeds
there is one subtree per common-prefix entry returned, in the order returned. -/
inductive ListingTree (client : Client) (bucket : GoString) : PrefixTree → Prop where
  | denied (pfx : GoString) (err : GoError)
      (hfail : client (listInput bucket pfx) = .error err) :
      ListingTree client bucket (.node pfx [])
  | listed (pfx : GoString) (output : ListObjectsOutput) (kids : List PrefixTree)
      (hlist : client (listInput bucket pfx) = .ok output)
      (hroots : kids.map PrefixTree.root = output.CommonPrefixes.map CommonPrefix.Prefix)
      (hkids : ∀ k ∈ kids, ListingTree client bucket k) :
      ListingTree client bucket (.node pfx kids)

/-! ## A sample bucket, used to instantiate the properties -/

/-- The timestamp text of the sample entries. -/
def sampleTime : GoString := "2024-01-02 03:04:05 +0000 UTC".toList

/-- The page the sample service returns for the root prefix. -/
def samplePage : ListObjectsOutput :=
  { CommonPrefixes := [⟨"logs/".toList⟩, ⟨"img/".toList⟩],
    Contents := [⟨some "readme.txt".toList, sampleTime, 120⟩,
                 ⟨some "NOTES.TXT".toList, sampleTime, 7⟩] }

/-- The page the sample service returns for `img/`. -/
def sampleImgPage : ListObjectsOutput :=
  { CommonPrefixes := [],
    Contents := [⟨some "img/cat.png".toList, sampleTime, 2048⟩] }

/-- A sample listing service: the root and `img/` can be listed, every other
prefix is denied. -/
def sampleClient : Client := fun input =>
  if input.Prefix = [] then .ok samplePage
  else if input.Prefix = "img/".toList then .ok sampleImgPage
  else .error (.foreign "AccessDenied".toList)

/-- The sample enumerator, excluding the extension `txt`. -/
def sampleEnum : s3Enum := { exclusions := ["txt".toList], client := sampleClient }

/-- The listing tree of the sample service below the root. -/
def sampleTree : PrefixTree :=
  .node [] [.node "logs/".toList [], .node "img/".toList []]

/-- Response headers holding only a region header with the given value. -/
def sampleHeader (region : GoString) : Header := fun key =>
  if key = "X-Amz-Bucket-Region".toList then [region] else []

/-- A sample environment: the probe answers 200 with region `us-east-1`, the
configuration loads, and the client is the sample service. -/
def sampleEnv : Env :=
  { Get := fun _ => .ok ⟨200, sampleHeader "us-east-1".toList⟩,
    LoadDefaultConfig := fun region => .ok ⟨region⟩,
    NewFromConfig := fun _ => sampleClient }

/-- A sample environment whose probe answers 404 while still naming a region. -/
def missingBucketEnv : Env :=
  { Get := fun _ => .ok ⟨404, sampleHeader "us-east-1".toList⟩,
    LoadDefaultConfig := fun region => .ok ⟨region⟩,
    NewFromConfig := fun _ => sampleClient }

/-- A sample environment whose probe succeeds and whose SDK configuration fails
to load. -/
def brokenConfigEnv : Env :=
  { Get := fun _ => .ok ⟨200, sampleHeader "us-east-1".toList⟩,
    LoadDefaultConfig := fun _ => .error (.foreign "failed to load shared config".toList),
    NewFromConfig := fun _ => sampleClient }

/-- Sample flags: bucket `example`, prefix `docs` and exclusions `png,jpg`. -/
def sampleFlags : Flags :=
  { b := "example".toList, p := "docs".toList, e := "png,jpg".toList }

/-- Sample flags: bucket `example`, no prefix, no exclusions. -/
def rootFlags : Flags := { b := "example".toList, p := [], e := [] }

/-! ## Worlds and runs -/

@[simp] theorem World.append_requests (σ τ : World) :
    (σ.append τ).requests = σ.requests ++ τ.requests := rfl

@[simp] theorem World.append_stdout (σ τ : World) :
    (σ.append τ).stdout = σ.stdout ++ τ.stdout := rfl

@[simp] theorem World.append_stderr (σ τ : World) :
    (σ.append τ).stderr = σ.stderr ++ τ.stderr := rfl

@[simp] theorem World.empty_requests : World.empty.requests = [] := rfl

@[simp] theorem World.empty_stdout : World.empty.stdout = [] := rfl

@[simp] theorem World.empty_stderr : World.empty.stderr = [] := rfl

theorem World.ext_fields {σ τ : World} (h₁ : σ.requests = τ.requests)
    (h₂ : σ.stdout = τ.stdout) (h₃ : σ.stderr = τ.stderr) : σ = τ := by
  cases σ; cases τ; simp_all

@[simp] theorem World.append_empty (σ : World) : σ.append World.empty = σ :=
  World.ext_fields (by simp) (by simp) (by simp)

@[simp] theorem World.empty_append (σ : World) : World.empty.append σ = σ :=
  World.ext_fields (by simp) (by simp) (by simp)

theorem World.append_assoc (σ τ υ : World) :
    (σ.append τ).append υ = σ.append (τ.append υ) :=
  World.ext_fields (by simp) (by simp) (by simp)

@[simp] theorem World.concat_requests (τs : List World) :
    (World.concat τs).requests = (τs.map World.requests).flatten := by
  induction τs with
  | nil => rfl
  | cons τ τs ih => simp [World.concat, ih]

@[simp] theorem World.concat_stdout (τs : List World) :
    (World.concat τs).stdout = (τs.map World.stdout).flatten := by
  induction τs with
  | nil => rfl
  | cons τ τs ih => simp [World.concat, ih]

@[simp] theorem World.concat_stderr (τs : List World) :
    (World.concat τs).stderr = (τs.map World.stderr).flatten := by
  induction τs with
  | nil => rfl
  | cons τ τs ih => simp [World.concat, ih]

@[simp] theorem Run.after_done (σ τ : World) : Run.after σ (.done τ) = .done (σ.append τ) := rfl

@[simp] theorem Run.after_outOfFuel (σ τ : World) :
    Run.after σ (.outOfFuel τ) = .outOfFuel (σ.append τ) := rfl

theorem Run.after_after (σ τ : World) (r : Run) :
    Run.after σ (Run.after τ r) = Run.after (σ.append τ) r := by
  cases r <;> simp [World.append_assoc]

@[simp] theorem Run.after_world (σ : World) (r : Run) :
    (Run.after σ r).world = σ.append r.world := by
  cases r <;> rfl

/-! ## Lemmas on the library functions -/

theorem slices.Contains_iff (s : List GoString) (v : GoString) :
    slices.Contains s v = true ↔ v ∈ s := by
  induction s with
  | nil => simp [slices.Contains]
  | cons x s ih => simp [slices.Contains, ih]

/-! ## The two loops, and the frame property -/

theorem rangeContents_eq (exclusions : List GoString) (objects : List Object) (w : List Row) :
    rangeContents exclusions objects w =
      w ++ (objects.filter (fun o => decide (extension o.Key ∉ exclusions))).map objectRow := by
  induction objects generalizing w with
  | nil => simp [rangeContents]
  | cons o os ih =>
    by_cases h : extension o.Key ∈ exclusions
    · have hc : slices.Contains exclusions (extension o.Key) = true :=
        (slices.Contains_iff _ _).2 h
      simp [rangeContents, hc, h, ih]
    · have hc : slices.Contains exclusions (extension o.Key) = false := by
        cases hb : slices.Contains exclusions (extension o.Key) with
        | false => rfl
        | true => exact absurd ((slices.Contains_iff _ _).1 hb) h
      simp [rangeContents, hc, h, ih]

theorem rangeCommonPrefixes_after (call : GoString → World → Run)
    (hcall : ∀ p σ, call p σ = Run.after σ (call p World.empty))
    (cs : List CommonPrefix) (σ : World) :
    rangeCommonPrefixes call cs σ = Run.after σ (rangeCommonPrefixes call cs World.empty) := by
  induction cs generalizing σ with
  | nil => simp [rangeCommonPrefixes]
  | cons c cs ih =>
    simp only [rangeCommonPrefixes]
    rw [hcall c.Prefix σ]
    cases hc : call c.Prefix World.empty with
    | done τ =>
      simp only [Run.after_done]
      rw [ih (σ.append τ), ih τ, Run.after_after]
    | outOfFuel τ => simp

/-- One call of `listWithPrefix`, unfolded: the listing request, then either the two
loops and the flush, or the denial row. -/
theorem listWithPrefix_succ (e : s3Enum) (bucket : GoString) (fuel : Nat) (pfx : GoString)
    (σ : World) :
    listWithPrefix e bucket (fuel + 1) pfx σ =
      match e.client (listInput bucket pfx) with
      | .ok output =>
        match rangeCommonPrefixes (listWithPrefix e bucket fuel) output.CommonPrefixes
            { σ with requests := σ.requests ++ [listInput bucket pfx] } with
        | .done σ' =>
          .done { σ' with stdout := σ'.stdout ++
            (rangeContents e.exclusions output.Contents []).map Out.row }
        | .outOfFuel σ' => .outOfFuel σ'
      | .error _ =>
        .done { σ with requests := σ.requests ++ [listInput bucket pfx],
                       stdout := σ.stdout ++ [Out.row (deniedRow pfx)] } := by
  simp only [listWithPrefix]
  cases e.client (listInput bucket pfx) <;> rfl

/-- Frame property: a walk started in the world `σ` is the walk started in the empty
world, replayed after `σ`. -/
theorem listWithPrefix_after (e : s3Enum) (bucket : GoString) (fuel : Nat) :
    ∀ (pfx : GoString) (σ : World),
      listWithPrefix e bucket fuel pfx σ =
        Run.after σ (listWithPrefix e bucket fuel pfx World.empty) := by
  induction fuel with
  | zero => intro pfx σ; simp [listWithPrefix]
  | succ fuel ih =>
    intro pfx σ
    rw [listWithPrefix_succ, listWithPrefix_succ]
    cases hcl : e.client (listInput bucket pfx) with
    | error err =>
      simp only [Run.after_done]
      congr 1
      exact World.ext_fields (by simp) (by simp) (by simp)
    | ok output =>
      simp only
      rw [rangeCommonPrefixes_after _ ih output.CommonPrefixes
            { σ with requests := σ.requests ++ [listInput bucket pfx] },
          rangeCommonPrefixes_after _ ih output.CommonPrefixes
            { World.empty with requests := World.empty.requests ++ [listInput bucket pfx] }]
      cases rangeCommonPrefixes (listWithPrefix e bucket fuel) output.CommonPrefixes
          World.empty with
      | done τ =>
        simp only [Run.after_done]
        congr 1
        exact World.ext_fields (by simp) (by simp) (by simp)
      | outOfFuel τ =>
        simp only [Run.after_outOfFuel]
        congr 1
        exact World.ext_fields (by simp) (by simp) (by simp)


/-! ## The effects of a walk -/

theorem rangeCommonPrefixes_done (call : GoString → World → Run)
    (hcall : ∀ p σ, call p σ = Run.after σ (call p World.empty))
    (sub : GoString → World) (cs : List CommonPrefix)
    (hsub : ∀ c ∈ cs, call c.Prefix World.empty = .done (sub c.Prefix)) (σ : World) :
    rangeCommonPrefixes call cs σ =
      .done (σ.append (World.concat (cs.map fun c => sub c.Prefix))) := by
  induction cs generalizing σ with
  | nil => simp [rangeCommonPrefixes, World.concat]
  | cons c cs ih =>
    simp only [rangeCommonPrefixes]
    rw [hcall c.Prefix σ, hsub c (List.mem_cons_self _ _)]
    simp only [Run.after_done]
    rw [ih (fun d hd => hsub d (List.mem_cons_of_mem _ hd))]
    simp [World.concat, World.append_assoc]

theorem rangeCommonPrefixes_mono (call call' : GoString → World → Run)
    (h : ∀ p σ σ', call p σ = .done σ' → call' p σ = .done σ')
    (cs : List CommonPrefix) (σ σ' : World)
    (hrun : rangeCommonPrefixes call cs σ = .done σ') :
    rangeCommonPrefixes call' cs σ = .done σ' := by
  induction cs generalizing σ with
  | nil => simpa [rangeCommonPrefixes] using hrun
  | cons c cs ih =>
    simp only [rangeCommonPrefixes] at hrun ⊢
    cases hc : call c.Prefix σ with
    | done τ =>
      rw [hc] at hrun
      rw [h _ _ _ hc]
      exact ih τ hrun
    | outOfFuel τ =>
      rw [hc] at hrun
      cases hrun

theorem listWithPrefix_mono_succ (e : s3Enum) (bucket : GoString) (fuel : Nat) :
    ∀ (pfx : GoString) (σ σ' : World),
      listWithPrefix e bucket fuel pfx σ = .done σ' →
      listWithPrefix e bucket (fuel + 1) pfx σ = .done σ' := by
  induction fuel with
  | zero => intro pfx σ σ' h; simp [listWithPrefix] at h
  | succ fuel ih =>
    intro pfx σ σ' h
    rw [listWithPrefix_succ] at h ⊢
    cases hcl : e.client (listInput bucket pfx) with
    | error err => rw [hcl] at h; exact h
    | ok output =>
      rw [hcl] at h
      simp only at h ⊢
      cases hk : rangeCommonPrefixes (listWithPrefix e bucket fuel) output.CommonPrefixes
          { σ with requests := σ.requests ++ [listInput bucket pfx] } with
      | done τ =>
        rw [hk] at h
        rw [rangeCommonPrefixes_mono _ _ ih _ _ _ hk]
        exact h
      | outOfFuel τ =>
        rw [hk] at h
        cases h

/-- A walk that completes within some depth completes, with the same effects, within
any larger depth. -/
theorem listWithPrefix_mono (e : s3Enum) (bucket : GoString) (fuel fuel' : Nat)
    (hle : fuel ≤ fuel') (pfx : GoString) (σ σ' : World)
    (h : listWithPrefix e bucket fuel pfx σ = .done σ') :
    listWithPrefix e bucket fuel' pfx σ = .done σ' := by
  induction hle with
  | refl => exact h
  | step _ ih => exact listWithPrefix_mono_succ e bucket _ pfx σ σ' ih

theorem listWithPrefix_error (e : s3Enum) (bucket : GoString) (fuel : Nat) (pfx : GoString)
    (σ : World) (err : GoError) (hfail : e.client (listInput bucket pfx) = .error err) :
    listWithPrefix e bucket (fuel + 1) pfx σ =
      .done (σ.append ⟨[listInput bucket pfx], [Out.row (deniedRow pfx)], []⟩) := by
  rw [listWithPrefix_succ, hfail]
  simp only
  congr 1
  exact World.ext_fields (by simp) (by simp) (by simp)

/-- The effects of a call whose listing succeeds, given the effects `sub c.Prefix` of
the walk of each common prefix `c`. -/
theorem listWithPrefix_ok (e : s3Enum) (bucket : GoString) (fuel : Nat) (pfx : GoString)
    (σ : World) (output : ListObjectsOutput) (sub : GoString → World)
    (hlist : e.client (listInput bucket pfx) = .ok output)
    (hsub : ∀ c ∈ output.CommonPrefixes,
      listWithPrefix e bucket fuel c.Prefix World.empty = .done (sub c.Prefix)) :
    listWithPrefix e bucket (fuel + 1) pfx σ =
      .done (σ.append
        ⟨listInput bucket pfx ::
            (output.CommonPrefixes.map fun c => (sub c.Prefix).requests).flatten,
          (output.CommonPrefixes.map fun c => (sub c.Prefix).stdout).flatten ++
            ((output.Contents.filter
                (fun o => decide (extension o.Key ∉ e.exclusions))).map
              fun o => Out.row (objectRow o)),
          (output.CommonPrefixes.map fun c => (sub c.Prefix).stderr).flatten⟩) := by
  rw [listWithPrefix_succ, hlist]
  simp only
  rw [rangeCommonPrefixes_done _ (listWithPrefix_after e bucket fuel) sub _ hsub]
  simp only
  congr 1
  apply World.ext_fields
  · simp [Function.comp_def]
  · simp [rangeContents_eq, Function.comp_def]
  · simp [Function.comp_def]

theorem listWithPrefix_stderr (e : s3Enum) (bucket : GoString) (fuel : Nat) :
    ∀ (pfx : GoString) (σ : World),
      (listWithPrefix e bucket fuel pfx σ).world.stderr = σ.stderr := by
  induction fuel with
  | zero => intro pfx σ; rfl
  | succ fuel ih =>
    intro pfx σ
    rw [listWithPrefix_succ]
    have hloop : ∀ (cs : List CommonPrefix) (τ : World),
        (rangeCommonPrefixes (listWithPrefix e bucket fuel) cs τ).world.stderr = τ.stderr := by
      intro cs
      induction cs with
      | nil => intro τ; rfl
      | cons c cs ihc =>
        intro τ
        simp only [rangeCommonPrefixes]
        have hc := ih c.Prefix τ
        cases hr : listWithPrefix e bucket fuel c.Prefix τ with
        | done υ => rw [hr] at hc; simp only; rw [ihc υ]; exact hc
        | outOfFuel υ => rw [hr] at hc; exact hc
    cases hcl : e.client (listInput bucket pfx) with
    | error err => rfl
    | ok output =>
      simp only
      have hk := hloop output.CommonPrefixes
        { σ with requests := σ.requests ++ [listInput bucket pfx] }
      cases hr : rangeCommonPrefixes (listWithPrefix e bucket fuel) output.CommonPrefixes
          { σ with requests := σ.requests ++ [listInput bucket pfx] } with
      | done υ => rw [hr] at hk; exact hk
      | outOfFuel υ => rw [hr] at hk; exact hk


/-! ## The extension of a key -/

theorem strings.Replace_zero (s : GoString) (old : Char) (new : GoString) :
    strings.Replace s old new 0 = s := by
  cases s <;> rfl

theorem lastElement_append (a b : GoString) (hb : ∀ c ∈ b, c ≠ '/') :
    lastElement (a ++ b) = lastElement a ++ b := by
  unfold lastElement
  rw [List.reverse_append, List.takeWhile_append_of_pos, List.reverse_append, List.reverse_reverse]
  intro c hc
  simpa using hb c (List.mem_reverse.1 hc)

theorem lastElement_slash (a : GoString) : lastElement (a ++ ['/']) = [] := by
  simp [lastElement]

theorem afterLastDot_of_not_mem (b : GoString) (hb : '.' ∉ b) : afterLastDot b = [] := by
  simp [afterLastDot, hb]

theorem afterLastDot_append (a b : GoString) (hb : ∀ c ∈ b, c ≠ '.') :
    afterLastDot (a ++ '.' :: b) = b := by
  unfold afterLastDot
  rw [if_pos (by simp)]
  have : (a ++ '.' :: b).reverse = b.reverse ++ '.' :: a.reverse := by simp
  rw [this, List.takeWhile_append_of_pos]
  · simp
  · intro c hc
    simpa using hb c (List.mem_reverse.1 hc)

theorem extLoop_spec (a : GoString) :
    ∀ b : GoString, (∀ c ∈ b, c ≠ '.' ∧ c ≠ '/') →
      strings.Replace (filepath.ExtLoop (a ++ b) a.length) '.' [] 1 =
        afterLastDot (lastElement (a ++ b)) := by
  induction a using List.reverseRecOn with
  | nil =>
    intro b hb
    have h1 : lastElement b = b := by
      simpa [lastElement] using lastElement_append [] b (fun c hc => (hb c hc).2)
    have h2 : '.' ∉ b := fun h => (hb _ h).1 rfl
    simp [filepath.ExtLoop, strings.Replace, h1, afterLastDot_of_not_mem b h2]
  | append_singleton a c ih =>
    intro b hb
    have hget : (a ++ [c] ++ b).get? a.length = some c := by
      rw [List.append_assoc, List.get?_eq_getElem?, List.getElem?_append_right (le_refl _)]
      simp
    have hlen : (a ++ [c]).length = a.length + 1 := by simp
    rw [hlen]
    simp only [filepath.ExtLoop, hget]
    by_cases hs : c = '/'
    · subst hs
      have h2 : '.' ∉ b := fun h => (hb _ h).1 rfl
      rw [lastElement_append _ b (fun c hc => (hb c hc).2), lastElement_slash]
      simp [os.IsPathSeparator, strings.Replace, afterLastDot_of_not_mem b h2]
    · by_cases hd : c = '.'
      · subst hd
        have hl : lastElement (a ++ ['.'] ++ b) = lastElement a ++ '.' :: b := by
          have := lastElement_append a ('.' :: b) (by
            intro c hc
            rcases List.mem_cons.1 hc with h | h
            · subst h; decide
            · exact (hb c h).2)
          simpa using this
        rw [hl, afterLastDot_append _ b (fun c hc => (hb c hc).1)]
        simp [os.IsPathSeparator, strings.Replace, strings.Replace_zero]
      · have := ih (c :: b) (by
          intro d hd'
          rcases List.mem_cons.1 hd' with h | h
          · subst h; exact ⟨hd, hs⟩
          · exact hb d h)
        simp only [os.IsPathSeparator, beq_iff_eq, hs, hd, if_false]
        simpa using this

theorem extension_spec (k : GoString) :
    strings.Replace (filepath.Ext k) '.' [] 1 = afterLastDot (lastElement k) := by
  have := extLoop_spec k [] (by simp)
  simpa [filepath.Ext] using this


theorem lastElement_subset (k : GoString) (c : Char) (h : c ∈ lastElement k) : c ∈ k := by
  unfold lastElement at h
  rw [List.mem_reverse] at h
  exact List.mem_reverse.1 ((List.takeWhile_sublist _).subset h)

theorem afterLastDot_split (k : GoString) (h : '.' ∈ k) :
    ∃ a b, k = a ++ '.' :: b ∧ ∀ c ∈ b, c ≠ '.' := by
  induction k with
  | nil => cases h
  | cons x xs ih =>
    by_cases hxs : '.' ∈ xs
    · obtain ⟨a, b, hab, hb⟩ := ih hxs
      exact ⟨x :: a, b, by rw [hab]; rfl, hb⟩
    · rcases List.mem_cons.1 h with h1 | h1
      · exact ⟨[], xs, by rw [← h1]; rfl, fun c hc hcd => hxs (hcd ▸ hc)⟩
      · exact absurd h1 hxs


/-! ## Listing trees -/

theorem PrefixTree.preorderAll_eq (ts : List PrefixTree) :
    PrefixTree.preorderAll ts = (ts.map PrefixTree.preorder).flatten := by
  induction ts with
  | nil => simp [PrefixTree.preorderAll]
  | cons t ts ih => simp [PrefixTree.preorderAll, ih]

theorem PrefixTree.depth_le_depthAll (ts : List PrefixTree) :
    ∀ t ∈ ts, t.depth ≤ PrefixTree.depthAll ts := by
  induction ts with
  | nil => intro t ht; cases ht
  | cons u us ih =>
    intro t ht
    simp only [PrefixTree.depthAll]
    rcases List.mem_cons.1 ht with h | h
    · subst h; exact le_max_left _ _
    · exact le_trans (ih t h) (le_max_right _ _)

theorem listWithPrefix_done_world (e : s3Enum) (bucket : GoString) (fuel : Nat)
    (pfx : GoString) (σ σ' : World) (h : listWithPrefix e bucket fuel pfx σ = .done σ') :
    listWithPrefix e bucket fuel pfx σ = .done (listWithPrefix e bucket fuel pfx σ).world := by
  rw [h]; rfl

theorem listWithPrefix_tree (e : s3Enum) (bucket : GoString) (t : PrefixTree)
    (ht : ListingTree e.client bucket t) :
    ∀ fuel, t.depth ≤ fuel → ∃ τ, listWithPrefix e bucket fuel t.root World.empty = .done τ ∧
      τ.requests = t.preorder.map (listInput bucket) := by
  induction ht with
  | denied pfx err hfail =>
    intro fuel hfuel
    obtain ⟨n, rfl⟩ : ∃ n, fuel = n + 1 := ⟨fuel - 1, by simp [PrefixTree.depth] at hfuel; omega⟩
    refine ⟨_, listWithPrefix_error e bucket n pfx World.empty err hfail, ?_⟩
    simp [PrefixTree.preorder, PrefixTree.preorderAll]
  | listed pfx output kids hlist hroots hkids ih =>
    intro fuel hfuel
    obtain ⟨n, rfl⟩ : ∃ n, fuel = n + 1 := ⟨fuel - 1, by simp [PrefixTree.depth] at hfuel; omega⟩
    have hn : PrefixTree.depthAll kids ≤ n := by
      simp [PrefixTree.depth] at hfuel; exact hfuel
    have hkid : ∀ k ∈ kids, ∃ τ, listWithPrefix e bucket n k.root World.empty = .done τ ∧
        τ.requests = k.preorder.map (listInput bucket) :=
      fun k hk => ih k hk n (le_trans (PrefixTree.depth_le_depthAll kids k hk) hn)
    have hsub : ∀ c ∈ output.CommonPrefixes,
        listWithPrefix e bucket n c.Prefix World.empty =
          .done (listWithPrefix e bucket n c.Prefix World.empty).world := by
      intro c hc
      have : c.Prefix ∈ kids.map PrefixTree.root := by
        rw [hroots]; exact List.mem_map_of_mem _ hc
      obtain ⟨k, hk, hkc⟩ := List.mem_map.1 this
      obtain ⟨τ, hτ, _⟩ := hkid k hk
      rw [hkc] at hτ
      exact listWithPrefix_done_world e bucket n _ _ _ hτ
    refine ⟨_, listWithPrefix_ok e bucket n pfx World.empty output
      (fun p => (listWithPrefix e bucket n p World.empty).world) hlist hsub, ?_⟩
    simp only [World.append_requests, World.empty_requests, List.nil_append,
      PrefixTree.root, PrefixTree.preorder, List.map_cons, PrefixTree.preorderAll_eq]
    congr 1
    have h1 : (output.CommonPrefixes.map fun c =>
          (listWithPrefix e bucket n c.Prefix World.empty).world.requests) =
        (output.CommonPrefixes.map CommonPrefix.Prefix).map fun p =>
          (listWithPrefix e bucket n p World.empty).world.requests := by
      simp [List.map_map, Function.comp_def]
    rw [h1, ← hroots, List.map_map, List.map_flatten, List.map_map]
    congr 1
    apply List.map_congr_left
    intro k hk
    obtain ⟨τ, hτ, hreq⟩ := hkid k hk
    simp [Function.comp_def, hτ, Run.world, hreq]


/-! ## Termination, and the requests of a walk -/

theorem listWithPrefix_terminates (e : s3Enum) (bucket : GoString) (N : Nat)
    (hgrow : ∀ p output, e.client (listInput bucket p) = .ok output →
      ∀ c ∈ output.CommonPrefixes, p.length < c.Prefix.length ∧ c.Prefix.length ≤ N) :
    ∀ (n : Nat) (pfx : GoString), N - pfx.length ≤ n →
      ∃ rest, (∀ r ∈ rest, pfx.length < r.Prefix.length) ∧
        ∃ τ, listWithPrefix e bucket (n + 1) pfx World.empty = .done τ ∧
          τ.requests = listInput bucket pfx :: rest := by
  intro n
  induction n with
  | zero =>
    intro pfx hn
    cases hcl : e.client (listInput bucket pfx) with
    | error err =>
      exact ⟨[], by simp, _, listWithPrefix_error e bucket 0 pfx _ err hcl, by simp⟩
    | ok output =>
      have hnil : ∀ c ∈ output.CommonPrefixes, False := by
        intro c hc
        have := hgrow pfx output hcl c hc
        omega
      have hcs : output.CommonPrefixes = [] := List.eq_nil_iff_forall_not_mem.2 hnil
      exact ⟨[], by simp, _, listWithPrefix_ok e bucket 0 pfx _ output (fun _ => World.empty) hcl
        (fun c hc => (hnil c hc).elim), by simp [hcs]⟩
  | succ n ih =>
    intro pfx hn
    cases hcl : e.client (listInput bucket pfx) with
    | error err =>
      exact ⟨[], by simp, _, listWithPrefix_error e bucket _ pfx _ err hcl, by simp⟩
    | ok output =>
      have hkid : ∀ c ∈ output.CommonPrefixes,
          ∃ rest, (∀ r ∈ rest, c.Prefix.length < r.Prefix.length) ∧
            ∃ τ, listWithPrefix e bucket (n + 1) c.Prefix World.empty = .done τ ∧
              τ.requests = listInput bucket c.Prefix :: rest := by
        intro c hc
        have := hgrow pfx output hcl c hc
        exact ih c.Prefix (by omega)
      have hsub : ∀ c ∈ output.CommonPrefixes,
          listWithPrefix e bucket (n + 1) c.Prefix World.empty =
            .done (listWithPrefix e bucket (n + 1) c.Prefix World.empty).world := by
        intro c hc
        obtain ⟨rest, _, τ, h, _⟩ := hkid c hc
        exact listWithPrefix_done_world e bucket _ _ _ _ h
      refine ⟨(output.CommonPrefixes.map fun c =>
          (listWithPrefix e bucket (n + 1) c.Prefix World.empty).world.requests).flatten,
        ?_, _, listWithPrefix_ok e bucket (n + 1) pfx World.empty output
        (fun p => (listWithPrefix e bucket (n + 1) p World.empty).world) hcl hsub, by simp⟩
      intro r hr
      obtain ⟨l, hl, hrl⟩ := List.mem_flatten.1 hr
      obtain ⟨c, hc, rfl⟩ := List.mem_map.1 hl
      obtain ⟨rest, hrest, τ, h, hreq⟩ := hkid c hc
      have hlen := (hgrow pfx output hcl c hc).1
      rw [h] at hrl
      simp only [Run.world, hreq] at hrl
      rcases List.mem_cons.1 hrl with h1 | h1
      · subst h1; exact hlen
      · exact lt_trans hlen (hrest r h1)

theorem rangeCommonPrefixes_requests (call : GoString → World → Run)
    (good : GoString → Prop)
    (hcall : ∀ p σ, good p → ∀ r ∈ (call p σ).world.requests, r ∈ σ.requests ∨ good r.Prefix)
    (cs : List CommonPrefix) (hcs : ∀ c ∈ cs, good c.Prefix) (σ : World) :
    ∀ r ∈ (rangeCommonPrefixes call cs σ).world.requests, r ∈ σ.requests ∨ good r.Prefix := by
  induction cs generalizing σ with
  | nil => intro r hr; exact Or.inl hr
  | cons c cs ih =>
    intro r hr
    simp only [rangeCommonPrefixes] at hr
    have hc := hcall c.Prefix σ (hcs c (List.mem_cons_self _ _))
    cases hrun : call c.Prefix σ with
    | done τ =>
      rw [hrun] at hr hc
      rcases ih (fun d hd => hcs d (List.mem_cons_of_mem _ hd)) τ r hr with h | h
      · exact hc r h
      · exact Or.inr h
    | outOfFuel τ =>
      rw [hrun] at hr hc
      exact hc r hr

theorem listWithPrefix_requests (e : s3Enum) (bucket : GoString) (good : GoString → Prop)
    (hsvc : ∀ input output, e.client input = .ok output →
      ∀ c ∈ output.CommonPrefixes, good c.Prefix) (fuel : Nat) :
    ∀ (pfx : GoString) (σ : World), good pfx →
      ∀ r ∈ (listWithPrefix e bucket fuel pfx σ).world.requests,
        r ∈ σ.requests ∨ good r.Prefix := by
  induction fuel with
  | zero => intro pfx σ _ r hr; exact Or.inl hr
  | succ fuel ih =>
    intro pfx σ hp r hr
    rw [listWithPrefix_succ] at hr
    cases hcl : e.client (listInput bucket pfx) with
    | error err =>
      rw [hcl] at hr
      simp only [Run.world, List.mem_append, List.mem_singleton] at hr
      rcases hr with h | h
      · exact Or.inl h
      · subst h; exact Or.inr hp
    | ok output =>
      rw [hcl] at hr
      simp only at hr
      have hloop := rangeCommonPrefixes_requests (listWithPrefix e bucket fuel) good ih
        output.CommonPrefixes (hsvc _ output hcl)
        { σ with requests := σ.requests ++ [listInput bucket pfx] } r
      have hr' : r ∈ (rangeCommonPrefixes (listWithPrefix e bucket fuel) output.CommonPrefixes
          { σ with requests := σ.requests ++ [listInput bucket pfx] }).world.requests := by
        cases hk : rangeCommonPrefixes (listWithPrefix e bucket fuel) output.CommonPrefixes
            { σ with requests := σ.requests ++ [listInput bucket pfx] } with
        | done τ => rw [hk] at hr; exact hr
        | outOfFuel τ => rw [hk] at hr; exact hr
      rcases hloop hr' with h | h
      · simp only [List.mem_append, List.mem_singleton] at h
        rcases h with h | h
        · exact Or.inl h
        · subst h; exact Or.inr hp
      · exact Or.inr h

theorem listWithPrefix_requests_ne_nil (e : s3Enum) (bucket : GoString) (fuel : Nat)
    (pfx : GoString) (σ : World) :
    (listWithPrefix e bucket (fuel + 1) pfx σ).world.requests ≠ [] := by
  rw [listWithPrefix_after]
  rw [listWithPrefix_succ]
  cases hcl : e.client (listInput bucket pfx) with
  | error err => simp [Run.world]
  | ok output =>
    simp only
    rw [rangeCommonPrefixes_after _ (listWithPrefix_after e bucket fuel)]
    cases rangeCommonPrefixes (listWithPrefix e bucket fuel) output.CommonPrefixes
        World.empty <;> simp [Run.world]

/-! ## The region probe and `main` -/

theorem getRegion_transport (get : GoString → Except GoError Response)
    (bucketName : GoString) (σ : World) (err : GoError)
    (hget : get (requestURL bucketName) = .error err) :
    getRegion get bucketName σ =
      (([], some err),
        ⟨σ.requests,
          σ.stdout ++ [.line ("error making http request: ".toList ++ err.Error)],
          σ.stderr⟩) := by
  unfold getRegion
  rw [hget]

theorem getRegion_404 (get : GoString → Except GoError Response)
    (bucketName : GoString) (σ : World) (res : Response)
    (hget : get (requestURL bucketName) = .ok res) (h404 : res.StatusCode = 404) :
    getRegion get bucketName σ = (([], some (.New "bucket not found".toList)), σ) := by
  unfold getRegion
  rw [hget]
  exact if_pos h404

theorem getRegion_missing (get : GoString → Except GoError Response)
    (bucketName : GoString) (σ : World) (res : Response)
    (hget : get (requestURL bucketName) = .ok res) (h404 : res.StatusCode ≠ 404)
    (hreg : res.Header.Get "x-amz-bucket-region".toList = []) :
    getRegion get bucketName σ = (([], some (.New "missing region header".toList)), σ) := by
  unfold getRegion
  rw [hget]
  show (if res.StatusCode = 404 then _ else _) = _
  rw [if_neg h404]
  exact if_pos hreg

theorem getRegion_found (get : GoString → Except GoError Response)
    (bucketName : GoString) (σ : World) (res : Response)
    (hget : get (requestURL bucketName) = .ok res) (h404 : res.StatusCode ≠ 404)
    (hreg : res.Header.Get "x-amz-bucket-region".toList ≠ []) :
    getRegion get bucketName σ =
      ((res.Header.Get "x-amz-bucket-region".toList, none), σ) := by
  unfold getRegion
  rw [hget]
  show (if res.StatusCode = 404 then _ else _) = _
  rw [if_neg h404]
  exact if_neg hreg

theorem getRegion_world_of_ok (get : GoString → Except GoError Response)
    (bucketName : GoString) (σ : World) (region : GoString)
    (h : (getRegion get bucketName σ).1 = (region, none)) :
    getRegion get bucketName σ = ((region, none), σ) ∧ region ≠ [] := by
  cases hget : get (requestURL bucketName) with
  | error err =>
    rw [getRegion_transport get bucketName σ err hget] at h
    cases h
  | ok res =>
    by_cases h404 : res.StatusCode = 404
    · rw [getRegion_404 get bucketName σ res hget h404] at h
      cases h
    · by_cases hreg : res.Header.Get "x-amz-bucket-region".toList = []
      · rw [getRegion_missing get bucketName σ res hget h404 hreg] at h
        cases h
      · rw [getRegion_found get bucketName σ res hget h404 hreg] at h ⊢
        cases h
        exact ⟨rfl, hreg⟩

theorem main_of_region (env : Env) (flags : Flags) (fuel : Nat) (σ σ₁ : World)
    (region : GoString) (getRegionErr : Option GoError) (hb : flags.b ≠ [])
    (hreg : getRegion env.Get flags.b σ = ((region, getRegionErr), σ₁)) :
    main env flags fuel σ =
      if getRegionErr = none ∧ region ≠ [] then
        match env.LoadDefaultConfig region with
        | .error err =>
          (.done ⟨σ₁.requests,
              σ₁.stdout ++
                [.line ("Bucket: ".toList ++ flags.b), .line ("Region ".toList ++ region)],
              σ₁.stderr ++ [err.Error]⟩, 1)
        | .ok cfg =>
          (listWithPrefix ⟨parseExclusions flags.e, env.NewFromConfig cfg⟩ flags.b fuel
            (rootPrefix flags.p)
            ⟨σ₁.requests,
              σ₁.stdout ++
                [.line ("Bucket: ".toList ++ flags.b), .line ("Region ".toList ++ region)],
              σ₁.stderr⟩, 0)
      else
        (.done ⟨σ₁.requests,
            σ₁.stdout ++
              [.line (fmt.errorText getRegionErr)],
            σ₁.stderr⟩, 0) := by
  unfold main
  rw [if_neg hb, hreg]

theorem main_walk (env : Env) (flags : Flags) (fuel : Nat) (σ : World) (region : GoString)
    (cfg : Config) (hb : flags.b ≠ [])
    (hreg : (getRegion env.Get flags.b σ).1 = (region, none))
    (hcfg : env.LoadDefaultConfig region = .ok cfg) :
    main env flags fuel σ =
      (listWithPrefix ⟨parseExclusions flags.e, env.NewFromConfig cfg⟩ flags.b fuel
        (rootPrefix flags.p)
        ⟨σ.requests,
          σ.stdout ++ [.line ("Bucket: ".toList ++ flags.b), .line ("Region ".toList ++ region)],
          σ.stderr⟩, 0) := by
  obtain ⟨hpair, hne⟩ := getRegion_world_of_ok env.Get flags.b σ region hreg
  rw [main_of_region env flags fuel σ σ region none hb hpair, if_pos ⟨rfl, hne⟩, hcfg]

theorem main_config_error (env : Env) (flags : Flags) (fuel : Nat) (σ : World)
    (region : GoString) (err : GoError) (hb : flags.b ≠ [])
    (hreg : (getRegion env.Get flags.b σ).1 = (region, none))
    (hcfg : env.LoadDefaultConfig region = .error err) :
    main env flags fuel σ =
      (.done ⟨σ.requests,
          σ.stdout ++ [.line ("Bucket: ".toList ++ flags.b), .line ("Region ".toList ++ region)],
          σ.stderr ++ [err.Error]⟩, 1) := by
  obtain ⟨hpair, hne⟩ := getRegion_world_of_ok env.Get flags.b σ region hreg
  rw [main_of_region env flags fuel σ σ region none hb hpair, if_pos ⟨rfl, hne⟩, hcfg]

theorem main_region_error (env : Env) (flags : Flags) (fuel : Nat) (σ : World)
    (err : GoError) (hb : flags.b ≠ [])
    (hreg : (getRegion env.Get flags.b σ).1.2 = some err) :
    ∃ lines, main env flags fuel σ =
        (.done ⟨σ.requests, σ.stdout ++ lines.map Out.line, σ.stderr⟩, 0) ∧
      (lines = [err.Error] ∨
        lines = ["error making http request: ".toList ++ err.Error, err.Error]) := by
  have hno : ¬ ((some err : Option GoError) = none ∧ ([] : GoString) ≠ []) := fun h => by
    cases h.1
  cases hget : env.Get (requestURL flags.b) with
  | error e =>
    have hg := getRegion_transport env.Get flags.b σ e hget
    rw [hg] at hreg
    cases hreg
    refine ⟨["error making http request: ".toList ++ err.Error, err.Error], ?_, Or.inr rfl⟩
    rw [main_of_region env flags fuel σ _ _ _ hb hg, if_neg hno]
    simp [fmt.errorText]
  | ok res =>
    refine ⟨[err.Error], ?_, Or.inl rfl⟩
    by_cases h404 : res.StatusCode = 404
    · have hg := getRegion_404 env.Get flags.b σ res hget h404
      rw [hg] at hreg
      cases hreg
      rw [main_of_region env flags fuel σ _ _ _ hb hg, if_neg hno]
      rfl
    · by_cases hh : res.Header.Get "x-amz-bucket-region".toList = []
      · have hg := getRegion_missing env.Get flags.b σ res hget h404 hh
        rw [hg] at hreg
        cases hreg
        rw [main_of_region env flags fuel σ _ _ _ hb hg, if_neg hno]
        rfl
      · rw [getRegion_found env.Get flags.b σ res hget h404 hh] at hreg
        cases hreg

theorem strings.HasSuffix_append (p s : GoString) : strings.HasSuffix (p ++ s) s = true := by
  simp [strings.HasSuffix]

theorem rootPrefix_append (p : GoString) (hp : p ≠ [])
    (hs : strings.HasSuffix p "/".toList = false) : rootPrefix p = p ++ "/".toList := by
  unfold rootPrefix
  rw [if_pos]
  refine ⟨hp, ?_⟩
  rw [hs]
  rfl

theorem rootPrefix_same (p : GoString)
    (h : p = [] ∨ strings.HasSuffix p "/".toList = true) : rootPrefix p = p := by
  unfold rootPrefix
  rw [if_neg]
  rintro ⟨h1, h2⟩
  rcases h with h | h
  · exact h1 h
  · rw [h] at h2
    cases h2

theorem rootPrefix_good (p : GoString) :
    rootPrefix p = [] ∨ strings.HasSuffix (rootPrefix p) "/".toList = true := by
  by_cases hp : p = []
  · left; rw [rootPrefix_same p (Or.inl hp)]; exact hp
  · right
    cases hs : strings.HasSuffix p "/".toList with
    | true => rw [rootPrefix_same p (Or.inr hs)]; exact hs
    | false => rw [rootPrefix_append p hp hs]; exact strings.HasSuffix_append p _

theorem sampleTree_listing : ListingTree sampleEnum.client "example".toList sampleTree := by
  refine ListingTree.listed [] samplePage _ rfl rfl ?_
  intro k hk
  simp only [List.mem_cons, List.mem_singleton, List.not_mem_nil, or_false] at hk
  rcases hk with rfl | rfl
  · exact ListingTree.denied _ (.foreign "AccessDenied".toList) rfl
  · exact ListingTree.listed _ sampleImgPage [] rfl rfl (fun k hk => by cases hk)

theorem sampleClient_cases (input : ListObjectsInput) (output : ListObjectsOutput)
    (h : sampleClient input = .ok output) :
    (input.Prefix = [] ∧ output = samplePage) ∨
      (input.Prefix = "img/".toList ∧ output = sampleImgPage) := by
  unfold sampleClient at h
  by_cases h1 : input.Prefix = []
  · rw [if_pos h1] at h
    cases h
    exact Or.inl ⟨h1, rfl⟩
  · rw [if_neg h1] at h
    by_cases h2 : input.Prefix = "img/".toList
    · rw [if_pos h2] at h
      cases h
      exact Or.inr ⟨h2, rfl⟩
    · rw [if_neg h2] at h
      cases h

theorem sampleClient_slash (input : ListObjectsInput) (output : ListObjectsOutput)
    (h : sampleClient input = .ok output) :
    ∀ c ∈ output.CommonPrefixes, strings.HasSuffix c.Prefix "/".toList = true := by
  rcases sampleClient_cases input output h with ⟨_, rfl⟩ | ⟨_, rfl⟩ <;> decide

theorem sampleClient_grows (p : GoString) (output : ListObjectsOutput)
    (h : sampleClient (listInput "example".toList p) = .ok output) :
    ∀ c ∈ output.CommonPrefixes, p.length < c.Prefix.length ∧ c.Prefix.length ≤ 5 := by
  rcases sampleClient_cases _ output h with ⟨hp, rfl⟩ | ⟨_, rfl⟩
  · have hp' : p = [] := hp
    subst hp'
    decide
  · intro c hc
    cases hc

/-! ## The claims -/

/-- C1 (failure isolation).  Let the listing of `pfx` succeed with `output`, let the
listing of one of its common prefixes `c` fail, and let the walk of every other
common prefix `d` of `output` complete with effects `sub d.Prefix`.  Then the walk
of `pfx` completes, and what it writes is, entry by entry in listing order, exactly
one row for `c` (its denial row) and the complete output of every other common
prefix, followed by one row for every object whose extension is not excluded.  The
walk of `c` itself is one listing call and that one row. -/
theorem failure_isolation (e : s3Enum) (bucket pfx : GoString) (fuel : Nat) (σ : World)
    (output : ListObjectsOutput) (c : CommonPrefix) (err : GoError) (sub : GoString → World)
    (hlist : e.client (listInput bucket pfx) = .ok output)
    (hc : c ∈ output.CommonPrefixes)
    (hfail : e.client (listInput bucket c.Prefix) = .error err)
    (hsub : ∀ d ∈ output.CommonPrefixes, d ≠ c →
      listWithPrefix e bucket (fuel + 1) d.Prefix World.empty = .done (sub d.Prefix)) :
    ∃ σ', listWithPrefix e bucket (fuel + 2) pfx σ = .done σ' ∧
      σ'.stdout = σ.stdout ++
        (output.CommonPrefixes.map fun d =>
          if d = c then [Out.row (deniedRow c.Prefix)] else (sub d.Prefix).stdout).flatten ++
        (output.Contents.filter fun o => decide (extension o.Key ∉ e.exclusions)).map
          (fun o => Out.row (objectRow o)) ∧
      listWithPrefix e bucket (fuel + 1) c.Prefix World.empty =
        .done ⟨[listInput bucket c.Prefix], [Out.row (deniedRow c.Prefix)], []⟩ := by
  have hcrun : listWithPrefix e bucket (fuel + 1) c.Prefix World.empty =
      .done ⟨[listInput bucket c.Prefix], [Out.row (deniedRow c.Prefix)], []⟩ := by
    rw [listWithPrefix_error e bucket fuel c.Prefix World.empty err hfail]
    simp
  have hall : ∀ d ∈ output.CommonPrefixes,
      listWithPrefix e bucket (fuel + 1) d.Prefix World.empty =
        .done (if d.Prefix = c.Prefix then
            ⟨[listInput bucket c.Prefix], [Out.row (deniedRow c.Prefix)], []⟩
          else sub d.Prefix) := by
    intro d hd
    by_cases hdc : d.Prefix = c.Prefix
    · rw [if_pos hdc, hdc]; exact hcrun
    · rw [if_neg hdc]
      exact hsub d hd (fun h => hdc (by rw [h]))
  refine ⟨_, listWithPrefix_ok e bucket (fuel + 1) pfx σ output
    (fun p => if p = c.Prefix then
        ⟨[listInput bucket c.Prefix], [Out.row (deniedRow c.Prefix)], []⟩
      else sub p) hlist hall, ?_, hcrun⟩
  simp only [World.append_stdout, List.append_assoc]
  congr 2
  congr 1
  apply List.map_congr_left
  intro d _
  have hiff : d = c ↔ d.Prefix = c.Prefix := by
    constructor
    · intro h; rw [h]
    · intro h; cases d; cases c; simp_all
  by_cases hdc : d.Prefix = c.Prefix
  · rw [if_pos hdc, if_pos (hiff.2 hdc)]
  · rw [if_neg hdc, if_neg (fun h => hdc (hiff.1 h))]

/-- Witness of C1 on the sample bucket: `logs/` is denied, `img/` is walked, and the
root's own objects follow. -/
theorem failure_isolation_witness :
    ∃ σ', listWithPrefix sampleEnum "example".toList 2 [] World.empty = .done σ' ∧
      σ'.stdout =
        [Out.row (deniedRow "logs/".toList),
         Out.row ⟨sampleTime, 2048, "img/cat.png".toList⟩,
         Out.row ⟨sampleTime, 7, "NOTES.TXT".toList⟩] ∧
      listWithPrefix sampleEnum "example".toList 1 "logs/".toList World.empty =
        .done ⟨[listInput "example".toList "logs/".toList],
          [Out.row (deniedRow "logs/".toList)], []⟩ :=
  failure_isolation sampleEnum "example".toList [] 0 World.empty samplePage
    ⟨"logs/".toList⟩ (.foreign "AccessDenied".toList)
    (fun p => (listWithPrefix sampleEnum "example".toList 1 p World.empty).world)
    rfl (by decide) rfl (by decide)

/-- C2 (denied branch).  When the listing call for `pfx` returns an error, of any
kind, the call makes that one listing call and writes exactly one row, with
timestamp `0000-00-00 00:00:00 +0000 UTC`, size `0` and key `pfx` followed by
` (Access Denied)`; nothing else is written; and calling again in the world so
reached sends the same single request and writes the same single row. -/
theorem denied_branch (e : s3Enum) (bucket pfx : GoString) (fuel : Nat) (σ : World)
    (err : GoError) (hfail : e.client (listInput bucket pfx) = .error err) :
    listWithPrefix e bucket (fuel + 1) pfx σ =
        .done ⟨σ.requests ++ [listInput bucket pfx],
          σ.stdout ++ [Out.row ⟨"0000-00-00 00:00:00 +0000 UTC".toList, 0,
            pfx ++ " (Access Denied)".toList⟩],
          σ.stderr⟩ ∧
      listWithPrefix e bucket (fuel + 1) pfx
          (listWithPrefix e bucket (fuel + 1) pfx σ).world =
        .done ⟨(σ.requests ++ [listInput bucket pfx]) ++ [listInput bucket pfx],
          (σ.stdout ++ [Out.row ⟨"0000-00-00 00:00:00 +0000 UTC".toList, 0,
            pfx ++ " (Access Denied)".toList⟩]) ++
            [Out.row ⟨"0000-00-00 00:00:00 +0000 UTC".toList, 0,
              pfx ++ " (Access Denied)".toList⟩],
          σ.stderr⟩ := by
  have h : ∀ τ : World, listWithPrefix e bucket (fuel + 1) pfx τ =
      .done ⟨τ.requests ++ [listInput bucket pfx],
        τ.stdout ++ [Out.row ⟨"0000-00-00 00:00:00 +0000 UTC".toList, 0,
          pfx ++ " (Access Denied)".toList⟩],
        τ.stderr⟩ := by
    intro τ
    rw [listWithPrefix_succ, hfail]
    rfl
  refine ⟨h σ, ?_⟩
  rw [h σ, h]
  rfl

/-- Witness of C2 on the sample bucket, whose prefix `logs/` is denied. -/
theorem denied_branch_witness :
    listWithPrefix sampleEnum "example".toList 1 "logs/".toList World.empty =
        .done ⟨[] ++ [listInput "example".toList "logs/".toList],
          [] ++ [Out.row ⟨"0000-00-00 00:00:00 +0000 UTC".toList, 0,
            "logs/".toList ++ " (Access Denied)".toList⟩],
          []⟩ ∧
      listWithPrefix sampleEnum "example".toList 1 "logs/".toList
          (listWithPrefix sampleEnum "example".toList 1 "logs/".toList World.empty).world =
        .done ⟨([] ++ [listInput "example".toList "logs/".toList]) ++
            [listInput "example".toList "logs/".toList],
          ([] ++ [Out.row ⟨"0000-00-00 00:00:00 +0000 UTC".toList, 0,
            "logs/".toList ++ " (Access Denied)".toList⟩]) ++
            [Out.row ⟨"0000-00-00 00:00:00 +0000 UTC".toList, 0,
              "logs/".toList ++ " (Access Denied)".toList⟩],
          []⟩ :=
  denied_branch sampleEnum "example".toList "logs/".toList 0 World.empty
    (.foreign "AccessDenied".toList) rfl

/-- C3 (exclusion filter).  On a successful listing of `pfx`, once the loop over the
common prefixes has completed in the world `σ₂`, the call returns having written
after it exactly the rows (last-modified, size, full key) of the objects whose
extension is not an element of the exclusion list, one row per such object, in
the listing's order, and no row for an object whose extension is in the list.
Membership is equality of strings, so it is case-sensitive. -/
theorem exclusion_filter (e : s3Enum) (bucket pfx : GoString) (fuel : Nat) (σ σ₂ : World)
    (output : ListObjectsOutput)
    (hlist : e.client (listInput bucket pfx) = .ok output)
    (hkids : rangeCommonPrefixes (listWithPrefix e bucket fuel) output.CommonPrefixes
      ⟨σ.requests ++ [listInput bucket pfx], σ.stdout, σ.stderr⟩ = .done σ₂) :
    listWithPrefix e bucket (fuel + 1) pfx σ =
        .done ⟨σ₂.requests,
          σ₂.stdout ++
            (output.Contents.filter fun o => decide (extension o.Key ∉ e.exclusions)).map
              (fun o => Out.row ⟨o.LastModified, o.Size, aws.ToString o.Key⟩),
          σ₂.stderr⟩ ∧
      (e.exclusions = [] →
        listWithPrefix e bucket (fuel + 1) pfx σ =
          .done ⟨σ₂.requests,
            σ₂.stdout ++
              output.Contents.map
                (fun o => Out.row ⟨o.LastModified, o.Size, aws.ToString o.Key⟩),
            σ₂.stderr⟩) := by
  have hrun : listWithPrefix e bucket (fuel + 1) pfx σ =
      .done ⟨σ₂.requests,
        σ₂.stdout ++
          (output.Contents.filter fun o => decide (extension o.Key ∉ e.exclusions)).map
            (fun o => Out.row ⟨o.LastModified, o.Size, aws.ToString o.Key⟩),
        σ₂.stderr⟩ := by
    rw [listWithPrefix_succ, hlist]
    simp only
    rw [hkids]
    simp only [rangeContents_eq, List.nil_append, List.map_map]
    rfl
  refine ⟨hrun, fun hnil => ?_⟩
  rw [hrun, hnil]
  simp

/-- Witness of C3 on the sample bucket's root with exclusions `{txt}`: `readme.txt`
gives no row and `NOTES.TXT`, whose extension differs in case, gives one. -/
theorem exclusion_filter_witness :
    listWithPrefix sampleEnum "example".toList 2 [] World.empty =
      .done ⟨[listInput "example".toList [], listInput "example".toList "logs/".toList,
          listInput "example".toList "img/".toList],
        [Out.row (deniedRow "logs/".toList),
         Out.row ⟨sampleTime, 2048, "img/cat.png".toList⟩] ++
          [Out.row ⟨sampleTime, 7, "NOTES.TXT".toList⟩],
        []⟩ :=
  And.left <| exclusion_filter sampleEnum "example".toList [] 1 World.empty
    ⟨[listInput "example".toList [], listInput "example".toList "logs/".toList,
        listInput "example".toList "img/".toList],
      [Out.row (deniedRow "logs/".toList), Out.row ⟨sampleTime, 2048, "img/cat.png".toList⟩],
      []⟩
    samplePage rfl (by decide)

/-- C4, as amended (extension definition).  For every object key, the extension that
`listWithPrefix` computes is the substring after the last `.` of the key's final
element, the part of the key after its last `/`; it is empty when that element
has no `.`.  It is therefore the substring after the last `.` of the whole key
whenever no `/` follows that `.`, and empty when the key has no `.` at all. -/
theorem extension_final_element (key : Option GoString) :
    extension key = afterLastDot (lastElement (aws.ToString key)) ∧
      ('.' ∉ lastElement (aws.ToString key) → extension key = []) ∧
      ('/' ∉ afterLastDot (aws.ToString key) →
        extension key = afterLastDot (aws.ToString key)) ∧
      ('.' ∉ aws.ToString key → extension key = []) := by
  have hext : extension key = afterLastDot (lastElement (aws.ToString key)) :=
    extension_spec (aws.ToString key)
  refine ⟨hext, ?_, ?_, ?_⟩
  · intro h
    rw [hext, afterLastDot_of_not_mem _ h]
  · intro h
    rw [hext]
    by_cases hdot : '.' ∈ aws.ToString key
    · obtain ⟨a, b, hab, hb⟩ := afterLastDot_split (aws.ToString key) hdot
      rw [hab] at h ⊢
      rw [afterLastDot_append a b hb] at h ⊢
      have hl := lastElement_append (a ++ ['.']) b (fun c hc hcs => h (hcs ▸ hc))
      simp only [List.append_assoc, List.singleton_append] at hl
      rw [hl]
      have : lastElement (a ++ ['.']) ++ b = (lastElement a ++ ['.']) ++ b := by
        rw [lastElement_append a ['.'] (by decide)]
      rw [this, List.append_assoc, List.singleton_append, afterLastDot_append _ b hb]
    · have hl : '.' ∉ lastElement (aws.ToString key) := fun hm =>
        hdot (lastElement_subset _ _ hm)
      rw [afterLastDot_of_not_mem _ hdot, afterLastDot_of_not_mem _ hl]
  · intro h
    have hl : '.' ∉ lastElement (aws.ToString key) := fun hm => h (lastElement_subset _ _ hm)
    rw [hext, afterLastDot_of_not_mem _ hl]

/-- An instance of C4 as amended: for the key `logs.2024/summary.txt` the extension is
`txt`, the text after the last `.` of the final element `summary.txt`. -/
theorem extension_final_element_witness :
    extension (some "logs.2024/summary.txt".toList) = "txt".toList :=
  (extension_final_element (some "logs.2024/summary.txt".toList)).1.trans (by decide)

/-- Counterexample to C4 as stated: for the key `logs.2024/summary` the substring after
the last `.` of the key is `2024/summary`, while the program computes the empty
extension, the final element `summary` having no `.`. -/
theorem extension_not_after_last_dot :
    afterLastDot "logs.2024/summary".toList = "2024/summary".toList ∧
      extension (some "logs.2024/summary".toList) = [] ∧
      extension (some "logs.2024/summary".toList) ≠ afterLastDot "logs.2024/summary".toList := by
  decide

/-- C5 (exhaustive depth-first traversal).  For every finite listing tree `t` of the
service, a walk from the root of `t` with room for the depth of `t` completes,
and the listing calls it makes are, in order, the pre-order traversal of `t`: the
root first, then each common-prefix entry returned for it together with its whole
subtree, in the order the listing returned the entries.  Each node of `t`, that
is each common-prefix entry returned at any level, thus gets exactly one call. -/
theorem depth_first_traversal (e : s3Enum) (bucket : GoString) (t : PrefixTree)
    (ht : ListingTree e.client bucket t) (fuel : Nat) (hfuel : t.depth ≤ fuel) (σ : World) :
    ∃ σ', listWithPrefix e bucket fuel t.root σ = .done σ' ∧
      σ'.requests = σ.requests ++ t.preorder.map (listInput bucket) := by
  obtain ⟨τ, hτ, hreq⟩ := listWithPrefix_tree e bucket t ht fuel hfuel
  refine ⟨σ.append τ, ?_, by simp [hreq]⟩
  rw [listWithPrefix_after, hτ]
  rfl

/-- Witness of C5 on the sample bucket: the root, then `logs/`, then `img/`. -/
theorem depth_first_traversal_witness :
    ∃ σ', listWithPrefix sampleEnum "example".toList 2 [] World.empty = .done σ' ∧
      σ'.requests = [listInput "example".toList [], listInput "example".toList "logs/".toList,
        listInput "example".toList "img/".toList] :=
  depth_first_traversal sampleEnum "example".toList sampleTree sampleTree_listing 2
    (by decide) World.empty

/-- C6 (output order).  Let the listing of `pfx` succeed with `output`, and let the walk
of each of its common prefixes `c` complete with effects `sub c.Prefix`.  Then
the walk of `pfx` completes and the rows it writes are the rows of the first
common prefix, then those of the second, and so on in listing order, followed by
the rows of the non-excluded objects of `output` in listing order. -/
theorem output_order (e : s3Enum) (bucket pfx : GoString) (fuel : Nat) (σ : World)
    (output : ListObjectsOutput) (sub : GoString → World)
    (hlist : e.client (listInput bucket pfx) = .ok output)
    (hsub : ∀ c ∈ output.CommonPrefixes,
      listWithPrefix e bucket fuel c.Prefix World.empty = .done (sub c.Prefix)) :
    ∃ σ', listWithPrefix e bucket (fuel + 1) pfx σ = .done σ' ∧
      σ'.stdout = σ.stdout ++
        (output.CommonPrefixes.map fun c => (sub c.Prefix).stdout).flatten ++
        (output.Contents.filter fun o => decide (extension o.Key ∉ e.exclusions)).map
          (fun o => Out.row (objectRow o)) := by
  refine ⟨_, listWithPrefix_ok e bucket fuel pfx σ output sub hlist hsub, ?_⟩
  simp

/-- Witness of C6 on the sample bucket: the row of `logs/`, the row found below
`img/`, then the root's own row. -/
theorem output_order_witness :
    ∃ σ', listWithPrefix sampleEnum "example".toList 2 [] World.empty = .done σ' ∧
      σ'.stdout =
        [Out.row (deniedRow "logs/".toList),
         Out.row ⟨sampleTime, 2048, "img/cat.png".toList⟩,
         Out.row ⟨sampleTime, 7, "NOTES.TXT".toList⟩] :=
  output_order sampleEnum "example".toList [] 1 World.empty samplePage
    (fun p => (listWithPrefix sampleEnum "example".toList 1 p World.empty).world)
    rfl (by decide)

/-- C7 (region resolution outcome).  `getRegion` returns (1) the transport error when
the GET fails; otherwise (2) `bucket not found` when the status code is 404,
whatever the headers; otherwise (3) `missing region header` when the
`x-amz-bucket-region` header is absent or its first value is empty; otherwise
(4) the header's value and no error.  A result without error never carries the
empty region. -/
theorem region_resolution (get : GoString → Except GoError Response)
    (bucketName : GoString) (σ : World) :
    (∀ err, get (requestURL bucketName) = .error err →
      (getRegion get bucketName σ).1 = ([], some err)) ∧
    (∀ res, get (requestURL bucketName) = .ok res → res.StatusCode = 404 →
      (getRegion get bucketName σ).1 = ([], some (.New "bucket not found".toList))) ∧
    (∀ res, get (requestURL bucketName) = .ok res → res.StatusCode ≠ 404 →
      (res.Header "X-Amz-Bucket-Region".toList = [] ∨
        (res.Header "X-Amz-Bucket-Region".toList).head? = some []) →
      (getRegion get bucketName σ).1 = ([], some (.New "missing region header".toList))) ∧
    (∀ res value values, get (requestURL bucketName) = .ok res → res.StatusCode ≠ 404 →
      res.Header "X-Amz-Bucket-Region".toList = value :: values → value ≠ [] →
      (getRegion get bucketName σ).1 = (value, none)) ∧
    (∀ region, (getRegion get bucketName σ).1 = (region, none) → region ≠ []) := by
  have hkey : textproto.CanonicalMIMEHeaderKey "x-amz-bucket-region".toList =
      "X-Amz-Bucket-Region".toList := by decide
  refine ⟨?_, ?_, ?_, ?_, ?_⟩
  · intro err hget
    rw [getRegion_transport get bucketName σ err hget]
  · intro res hget h404
    rw [getRegion_404 get bucketName σ res hget h404]
  · intro res hget h404 habsent
    have hreg : res.Header.Get "x-amz-bucket-region".toList = [] := by
      unfold Header.Get
      rw [hkey]
      rcases habsent with h | h
      · rw [h]
      · cases hv : res.Header "X-Amz-Bucket-Region".toList with
        | nil => rfl
        | cons v vs =>
          rw [hv] at h
          simp only [List.head?_cons, Option.some.injEq] at h
          exact h
    rw [getRegion_missing get bucketName σ res hget h404 hreg]
  · intro res value values hget h404 hval hne
    have hreg : res.Header.Get "x-amz-bucket-region".toList = value := by
      unfold Header.Get
      rw [hkey, hval]
    rw [getRegion_found get bucketName σ res hget h404 (by rw [hreg]; exact hne), hreg]
  · intro region h
    exact (getRegion_world_of_ok get bucketName σ region h).2

/-- An instance of C7: a 404 answer that names a region still yields
`bucket not found`, and a 200 answer yields the region it names. -/
theorem region_resolution_witness :
    (getRegion missingBucketEnv.Get "missing-bucket".toList World.empty).1 =
        ([], some (.New "bucket not found".toList)) ∧
      (getRegion sampleEnv.Get "example".toList World.empty).1 =
        ("us-east-1".toList, none) :=
  ⟨(region_resolution missingBucketEnv.Get "missing-bucket".toList World.empty).2.1
      ⟨404, sampleHeader "us-east-1".toList⟩ rfl rfl,
    (region_resolution sampleEnv.Get "example".toList World.empty).2.2.2.1
      ⟨200, sampleHeader "us-east-1".toList⟩ "us-east-1".toList [] rfl (by decide) rfl
      (by decide)⟩

/-- C8, as amended (region failure is fatal before enumeration).  For a non-empty
bucket name: when `getRegion` fails, `main` makes no listing call and writes no
row, only the lines reporting the error, and exits normally; when `getRegion`
succeeds and the SDK configuration loads, `main` is one call of
`listWithPrefix` at the root with the normalised prefix; when `getRegion`
succeeds and the configuration fails to load, `main` logs that error and exits
with status 1 without any listing call. -/
theorem region_failure_fatal (env : Env) (flags : Flags) (fuel : Nat) (σ : World)
    (hb : flags.b ≠ []) :
    (∀ err, (getRegion env.Get flags.b σ).1.2 = some err →
      ∃ lines, main env flags fuel σ =
          (.done ⟨σ.requests, σ.stdout ++ lines.map Out.line, σ.stderr⟩, 0) ∧
        (lines = [err.Error] ∨
          lines = ["error making http request: ".toList ++ err.Error, err.Error])) ∧
    (∀ region cfg, (getRegion env.Get flags.b σ).1 = (region, none) →
      env.LoadDefaultConfig region = .ok cfg →
      main env flags fuel σ =
        (listWithPrefix ⟨parseExclusions flags.e, env.NewFromConfig cfg⟩ flags.b fuel
          (rootPrefix flags.p)
          ⟨σ.requests,
            σ.stdout ++
              [.line ("Bucket: ".toList ++ flags.b), .line ("Region ".toList ++ region)],
            σ.stderr⟩, 0)) ∧
    (∀ region err, (getRegion env.Get flags.b σ).1 = (region, none) →
      env.LoadDefaultConfig region = .error err →
      main env flags fuel σ =
        (.done ⟨σ.requests,
            σ.stdout ++
              [.line ("Bucket: ".toList ++ flags.b), .line ("Region ".toList ++ region)],
            σ.stderr ++ [err.Error]⟩, 1)) :=
  ⟨fun err h => main_region_error env flags fuel σ err hb h,
    fun region cfg h hcfg => main_walk env flags fuel σ region cfg hb h hcfg,
    fun region err h hcfg => main_config_error env flags fuel σ region err hb h hcfg⟩

/-- Witness of C8: for the bucket `missing-bucket`, whose probe answers 404, `main`
prints `bucket not found` and makes no listing call. -/
theorem region_failure_fatal_witness :
    ∃ lines, main missingBucketEnv ⟨"missing-bucket".toList, [], []⟩ 5 World.empty =
        (.done ⟨[], [] ++ lines.map Out.line, []⟩, 0) ∧
      (lines = ["bucket not found".toList] ∨
        lines = ["error making http request: ".toList ++ "bucket not found".toList,
          "bucket not found".toList]) :=
  (region_failure_fatal missingBucketEnv ⟨"missing-bucket".toList, [], []⟩ 5 World.empty
    (by decide)).1 (.New "bucket not found".toList) rfl

/-- Counterexample to C8 as stated: the probe succeeds with region `us-east-1`, the SDK
configuration fails to load, and `main` ends with status 1 having made no listing
call, so it is not a call of `listWithPrefix`, which always lists its prefix. -/
theorem config_failure_skips_walk :
    (getRegion brokenConfigEnv.Get rootFlags.b World.empty).1 = ("us-east-1".toList, none) ∧
      main brokenConfigEnv rootFlags 5 World.empty =
        (.done ⟨[],
          [.line "Bucket: example".toList, .line "Region us-east-1".toList],
          ["failed to load shared config".toList]⟩, 1) ∧
      ¬ ((getRegion brokenConfigEnv.Get rootFlags.b World.empty).1.2 = none →
          ∃ (e : s3Enum) (σ : World),
            (main brokenConfigEnv rootFlags 5 World.empty).1 =
              listWithPrefix e rootFlags.b 5 (rootPrefix rootFlags.p) σ) := by
  refine ⟨by decide, by decide, ?_⟩
  intro h
  obtain ⟨e, σ, hrun⟩ := h (by decide)
  have hne := listWithPrefix_requests_ne_nil e rootFlags.b 4 (rootPrefix rootFlags.p) σ
  rw [← hrun] at hne
  exact hne (by decide)

/-- C9 (prefix invariant).  The prefix `main` passes to the root call of
`listWithPrefix` is the `-p` value with one `/` appended when that value is
non-empty and does not end in `/`, and the value unchanged otherwise; it is
empty or ends in `/`.  Given a service whose returned common prefixes all end in
`/`, every listing request `main` sends has a prefix that is empty or ends in
`/`, however far the walk gets. -/
theorem prefix_invariant (env : Env) (flags : Flags) (fuel : Nat) (σ : World)
    (hsvc : ∀ cfg input output, env.NewFromConfig cfg input = .ok output →
      ∀ c ∈ output.CommonPrefixes, strings.HasSuffix c.Prefix "/".toList = true) :
    (rootPrefix flags.p = [] ∨ strings.HasSuffix (rootPrefix flags.p) "/".toList = true) ∧
    (flags.p ≠ [] → strings.HasSuffix flags.p "/".toList = false →
      rootPrefix flags.p = flags.p ++ "/".toList) ∧
    (flags.p = [] ∨ strings.HasSuffix flags.p "/".toList = true →
      rootPrefix flags.p = flags.p) ∧
    (∀ region cfg, flags.b ≠ [] → (getRegion env.Get flags.b σ).1 = (region, none) →
      env.LoadDefaultConfig region = .ok cfg →
      (main env flags fuel σ).1 =
        listWithPrefix ⟨parseExclusions flags.e, env.NewFromConfig cfg⟩ flags.b fuel
          (rootPrefix flags.p)
          ⟨σ.requests,
            σ.stdout ++
              [.line ("Bucket: ".toList ++ flags.b), .line ("Region ".toList ++ region)],
            σ.stderr⟩) ∧
    (∀ r ∈ (main env flags fuel σ).1.world.requests,
      r ∈ σ.requests ∨ r.Prefix = [] ∨ strings.HasSuffix r.Prefix "/".toList = true) := by
  refine ⟨rootPrefix_good flags.p, rootPrefix_append flags.p, rootPrefix_same flags.p, ?_, ?_⟩
  · intro region cfg hb hreg hcfg
    rw [main_walk env flags fuel σ region cfg hb hreg hcfg]
  · intro r hr
    by_cases hb : flags.b = []
    · left
      unfold main at hr
      rw [if_pos hb] at hr
      exact hr
    · cases hres : (getRegion env.Get flags.b σ).1 with
      | mk region gerr =>
        cases gerr with
        | some err =>
          obtain ⟨lines, hmain, _⟩ := main_region_error env flags fuel σ err hb (by rw [hres])
          rw [hmain] at hr
          exact Or.inl hr
        | none =>
          cases hcfg : env.LoadDefaultConfig region with
          | error err =>
            rw [main_config_error env flags fuel σ region err hb hres hcfg] at hr
            exact Or.inl hr
          | ok cfg =>
            rw [main_walk env flags fuel σ region cfg hb hres hcfg] at hr
            exact listWithPrefix_requests ⟨parseExclusions flags.e, env.NewFromConfig cfg⟩
              flags.b (fun p => p = [] ∨ strings.HasSuffix p "/".toList = true)
              (fun input output h c hc => Or.inr (hsvc cfg input output h c hc))
              fuel (rootPrefix flags.p)
              ⟨σ.requests,
                σ.stdout ++
                  [.line ("Bucket: ".toList ++ flags.b), .line ("Region ".toList ++ region)],
                σ.stderr⟩
              (rootPrefix_good flags.p) r hr

/-- Witness of C9: with `-p docs` the root call lists `docs/`, and that is the only
request `main` sends on the sample bucket, where `docs/` is denied. -/
theorem prefix_invariant_witness :
    rootPrefix sampleFlags.p = "docs/".toList ∧
      (main sampleEnv sampleFlags 3 World.empty).1.world.requests =
        [listInput "example".toList "docs/".toList] ∧
      ∀ r ∈ (main sampleEnv sampleFlags 3 World.empty).1.world.requests,
        r ∈ World.empty.requests ∨ r.Prefix = [] ∨
          strings.HasSuffix r.Prefix "/".toList = true :=
  ⟨by decide, by decide,
    (prefix_invariant sampleEnv sampleFlags 3 World.empty
      (fun _ input output h => sampleClient_slash input output h)).2.2.2.2⟩

/-- C10 (termination of the walk).  When every common prefix the service returns is
strictly longer than the prefix that was listed and no longer than `N`, the walk
from any prefix `pfx` completes with nesting depth at most
`N - length pfx + 1`, after finitely many listing calls: the call for `pfx`
followed by calls for strictly longer prefixes only, so `pfx` is never listed
again beneath itself. -/
theorem walk_terminates (e : s3Enum) (bucket : GoString) (N : Nat)
    (hgrow : ∀ p output, e.client (listInput bucket p) = .ok output →
      ∀ c ∈ output.CommonPrefixes, p.length < c.Prefix.length ∧ c.Prefix.length ≤ N)
    (pfx : GoString) (σ : World) :
    ∃ rest σ',
      (∀ fuel, N - pfx.length + 1 ≤ fuel → listWithPrefix e bucket fuel pfx σ = .done σ') ∧
      σ'.requests = σ.requests ++ listInput bucket pfx :: rest ∧
      ∀ r ∈ rest, pfx.length < r.Prefix.length := by
  obtain ⟨rest, hrest, τ, hτ, hreq⟩ :=
    listWithPrefix_terminates e bucket N hgrow (N - pfx.length) pfx (le_refl _)
  refine ⟨rest, σ.append τ, ?_, by simp [hreq], hrest⟩
  intro fuel hfuel
  apply listWithPrefix_mono e bucket _ fuel hfuel
  rw [listWithPrefix_after, hτ]
  rfl

/-- Witness of C10 on the sample bucket, whose prefixes have at most five characters:
the walk from the root completes within depth `5 - 0 + 1`. -/
theorem walk_terminates_witness :
    ∃ rest σ',
      (∀ fuel, 5 - ([] : GoString).length + 1 ≤ fuel →
        listWithPrefix sampleEnum "example".toList fuel [] World.empty = .done σ') ∧
      σ'.requests = World.empty.requests ++ listInput "example".toList [] :: rest ∧
      ∀ r ∈ rest, ([] : GoString).length < r.Prefix.length :=
  walk_terminates sampleEnum "example".toList 5 sampleClient_grows [] World.empty

end S3E
